import Mathlib

/-!
Shallow embedding of the `monochord` library (src/lib.rs and src/tuning.rs).

Numeric model: the source computes in `f32`; here every `f32` value is
modelled as a real number, so `exp2`/`log2` become `Real.rpow`/`Real.logb 2`
and identities the source satisfies only up to floating-point rounding hold
exactly.  Rust `i32` steps are modelled as `ℤ` (the claims quantify over
integers and no claim depends on 32-bit wraparound); Rust `/` and `%` on
`i32` truncate toward zero, so they are embedded as `Int.tdiv` / `Int.tmod`.
-/

/-- Model of `Hz` (src/lib.rs): a newtype over `f32`, here over `ℝ`. -/
structure Hz where
  val : ℝ

/-- Model of `Cents` (src/lib.rs): a newtype over `f32`, here over `ℝ`. -/
structure Cents where
  val : ℝ

/-- Model of `Cents::from_ratio`: `Cents(1200.0 * ratio.log2())`. -/
noncomputable def Cents.from_ratio (ratio : ℝ) : Cents :=
  ⟨1200 * Real.logb 2 ratio⟩

/-- Model of `Cents::to_ratio`: `(self.0 / 1200.0).exp2()`. -/
noncomputable def Cents.to_ratio (c : Cents) : ℝ :=
  (2 : ℝ) ^ (c.val / 1200)

/-- Model of `impl Add<Cents> for Hz`: `self.0 * (rhs.0 / 1200.0).exp2()`. -/
noncomputable def Hz.addCents (h : Hz) (c : Cents) : Hz :=
  ⟨h.val * (2 : ℝ) ^ (c.val / 1200)⟩

noncomputable instance : HAdd Hz Cents Hz := ⟨Hz.addCents⟩

/-- Model of `impl Sub<Cents> for Hz`: `self.0 * (-rhs.0 / 1200.0).exp2()`. -/
noncomputable def Hz.subCents (h : Hz) (c : Cents) : Hz :=
  ⟨h.val * (2 : ℝ) ^ (-c.val / 1200)⟩

noncomputable instance : HSub Hz Cents Hz := ⟨Hz.subCents⟩

/-- Model of `impl Mul<f32> for Hz`. -/
def Hz.mulF (h : Hz) (k : ℝ) : Hz := ⟨h.val * k⟩

instance : HMul Hz Real Hz := ⟨Hz.mulF⟩

/-- Model of `impl Div<Hz> for Hz`: `Cents::from_ratio(self.0 / rhs.0)`. -/
noncomputable def Hz.divHz (a b : Hz) : Cents :=
  Cents.from_ratio (a.val / b.val)

noncomputable instance : HDiv Hz Hz Cents := ⟨Hz.divHz⟩

/-- Model of `impl Add<Cents> for Cents`. -/
def Cents.addC (a b : Cents) : Cents := ⟨a.val + b.val⟩

instance : Add Cents := ⟨Cents.addC⟩

/-- Model of `impl Sub<Cents> for Cents`. -/
def Cents.subC (a b : Cents) : Cents := ⟨a.val - b.val⟩

instance : Sub Cents := ⟨Cents.subC⟩

/-- Model of `impl Mul<f32> for Cents`. -/
def Cents.mulF (c : Cents) (k : ℝ) : Cents := ⟨c.val * k⟩

instance : HMul Cents Real Cents := ⟨Cents.mulF⟩

/-- Model of `const A440: Hz = Hz(440.0)` (src/tuning.rs). -/
def A440 : Hz := ⟨440⟩

/-- Model of the `Tuning` trait as a record of its two required methods:
a trait object carrying `reference_pitch` and `pitch`.  Each concrete
implementation below is converted to this record to use the trait's
provided (default) methods. -/
structure Tuning where
  reference_pitch : Hz
  pitch : ℤ → Option Hz

/-- Model of the provided default `Tuning::interval`.  The source is

`match (self.pitch(from), self.pitch(to)) { (Some(to), Some(from)) => Some(to / from), _ => None }`

where the tuple is `(pitch(from), pitch(to))` but the pattern binds the name
`to` to the FIRST component and `from` to the SECOND, so the returned value
is `pitch(from) / pitch(to)`.  Here `x` is bound to `pitch fr` and `y` to
`pitch to`, and the result is `x / y`, faithfully reproducing the swap. -/
noncomputable def Tuning.interval (t : Tuning) (fr tn : ℤ) : Option Cents :=
  match t.pitch fr, t.pitch tn with
  | some x, some y => some (x / y)
  | _, _ => none

/-- Model of `struct Edo` (src/tuning.rs).  `cardinality` is `u16` in the
source; it is modelled as `ℕ` (no claim depends on 16-bit wraparound). -/
structure Edo where
  cardinality : ℕ
  reference : Hz

/-- Model of `Edo::new`. -/
def Edo.new (cardinality : ℕ) (reference : Hz) : Edo :=
  ⟨cardinality, reference⟩

/-- Model of `Edo::reference_pitch`. -/
def Edo.reference_pitch (e : Edo) : Hz := e.reference

/-- Model of `Edo::pitch`: `reference + Cents(1200.0 / cardinality) * step`.
In the `f32` source, `cardinality = 0` yields an infinite step size; in this
real-valued model `1200 / 0 = 0`.  Every claim about `Edo` assumes a
positive cardinality, where the two agree. -/
noncomputable def Edo.pitch (e : Edo) (step : ℤ) : Option Hz :=
  some (e.reference + (⟨1200 / (e.cardinality : ℝ)⟩ : Cents) * ((step : ℤ) : ℝ))

/-- Model of the overriding `Edo::interval`:
`Some(Cents(1200.0 / cardinality * (to - from)))`. -/
noncomputable def Edo.interval (e : Edo) (fr tn : ℤ) : Option Cents :=
  some ⟨1200 / (e.cardinality : ℝ) * ((tn - fr : ℤ) : ℝ)⟩

/-- The `Edo` implementation of the trait, as a `Tuning` record. -/
noncomputable def Edo.toTuning (e : Edo) : Tuning :=
  ⟨e.reference_pitch, e.pitch⟩

/-- Model of `struct EqualSteps` (src/tuning.rs). -/
structure EqualSteps where
  step : Cents
  reference : Hz

/-- Model of `EqualSteps::reference_pitch`. -/
def EqualSteps.reference_pitch (t : EqualSteps) : Hz := t.reference

/-- Model of `EqualSteps::pitch`: `reference + step * (step_index as f32)`. -/
noncomputable def EqualSteps.pitch (t : EqualSteps) (step : ℤ) : Option Hz :=
  some (t.reference + t.step * ((step : ℤ) : ℝ))

/-- The `EqualSteps` implementation of the trait, as a `Tuning` record.
`EqualSteps` does not override `interval`, so it uses the default. -/
noncomputable def EqualSteps.toTuning (t : EqualSteps) : Tuning :=
  ⟨t.reference_pitch, t.pitch⟩

/-- Model of `struct CyclicTuning` (src/tuning.rs). -/
structure CyclicTuning where
  steps : List Cents
  reference : Hz

/-- Model of `CyclicTuning::from_cents`. -/
def CyclicTuning.from_cents (steps : List Cents) (reference : Hz) : CyclicTuning :=
  ⟨steps, reference⟩

/-- Model of `CyclicTuning::from_ratios`: each ratio is converted through
`Cents::from_ratio`. -/
noncomputable def CyclicTuning.from_ratios (rs : List ℝ) (reference : Hz) : CyclicTuning :=
  ⟨rs.map Cents.from_ratio, reference⟩

/-- Model of `CyclicTuning::reference_pitch`. -/
def CyclicTuning.reference_pitch (t : CyclicTuning) : Hz := t.reference

/-- Model of `CyclicTuning::pitch`.  Rust `%` and `/` on `i32` truncate
toward zero, hence `Int.tmod` / `Int.tdiv`.  `steps.last().unwrap()` is
reached only when the list is nonempty and the two slice indexings are
reached only with an in-range index, so they are rendered with `getLastD` /
`getD` (which agree with the source wherever the source does not panic). -/
noncomputable def CyclicTuning.pitch (t : CyclicTuning) (step : ℤ) : Option Hz :=
  if t.steps.length = 0 then some t.reference
  else
    let len : ℤ := (t.steps.length : ℤ)
    let last : Cents := t.steps.getLastD ⟨0⟩
    let rem : ℤ := Int.tmod step len
    let dv : ℤ := Int.tdiv step len
    if rem = 0 then some (t.reference + last * ((dv : ℤ) : ℝ))
    else
      let s : Cents :=
        if 0 < rem then t.steps.getD (rem - 1).toNat ⟨0⟩
        else t.steps.getD (len + rem - 1).toNat ⟨0⟩ - last
      some (t.reference + (last * ((dv : ℤ) : ℝ) + s))

/-- The `CyclicTuning` implementation of the trait, as a `Tuning` record. -/
noncomputable def CyclicTuning.toTuning (t : CyclicTuning) : Tuning :=
  ⟨t.reference_pitch, t.pitch⟩

/-- Model of `struct MidiTuning`: a table of pitches for MIDI notes. -/
structure MidiTuning where
  pitches : List Hz

/-- Generic all-or-nothing traversal of a list under `Option`, mirroring the
`for i in 0..127 { match ... { Some => push, None => return None } }` loop in
`MidiTuning::from_tuning`: returns `none` as soon as one element fails,
otherwise the list of all results in order. -/
def traverseOption {α β : Type} (f : α → Option β) : List α → Option (List β)
  | [] => some []
  | a :: l =>
    match f a with
    | none => none
    | some b => (traverseOption f l).map (fun r => b :: r)

/-- Model of `MidiTuning::from_tuning`: samples `tuning.pitch(i - refkey)`
for `i` in `0..127`, failing if any sample is absent.  `refkey` is `u8` in
the source guarded by `assert!(refkey < 127)`; the assertion is a
precondition carried by the theorems below, not a return value. -/
def MidiTuning.from_tuning (t : Tuning) (refkey : ℕ) : Option MidiTuning :=
  (traverseOption (fun i : ℕ => t.pitch ((i : ℤ) - (refkey : ℤ))) (List.range 127)).map
    MidiTuning.mk

/-- Model of `MidiTuning::from_pitches`: `None` if fewer than 127 pitches
are supplied, otherwise the first 127 verbatim (`hzs[0..127].to_owned()`). -/
def MidiTuning.from_pitches (hzs : List Hz) : Option MidiTuning :=
  if hzs.length < 127 then none else some ⟨hzs.take 127⟩

/-- Model of `impl Default for MidiTuning`:
`pitches.extend((0..127).map(|i| A440 + Cents((i - 69) as f32 * 100.0)))`. -/
noncomputable def MidiTuning.default : MidiTuning :=
  ⟨(List.range 127).map (fun i : ℕ => A440 + (⟨(((i : ℤ) - 69 : ℤ) : ℝ) * 100⟩ : Cents))⟩

/-- Model of `MidiTuning::reference_pitch`: `self.pitches[0]`.  The source
indexing panics on an empty table; every constructed table has 127 entries,
where `getD` agrees with the source. -/
def MidiTuning.reference_pitch (m : MidiTuning) : Hz :=
  m.pitches.getD 0 ⟨0⟩

/-- Model of `MidiTuning::pitch`: `None` for negative steps, otherwise the
checked lookup `self.pitches.get(step as usize).cloned()`. -/
def MidiTuning.pitch (m : MidiTuning) (step : ℤ) : Option Hz :=
  if step < 0 then none else m.pitches[step.toNat]?

/-- The `MidiTuning` implementation of the trait, as a `Tuning` record. -/
def MidiTuning.toTuning (m : MidiTuning) : Tuning :=
  ⟨m.reference_pitch, m.pitch⟩

/-! Unfolding lemmas for the arithmetic instances. -/

@[simp] lemma hz_add_def (h : Hz) (c : Cents) :
    h + c = (⟨h.val * (2 : ℝ) ^ (c.val / 1200)⟩ : Hz) := rfl

@[simp] lemma cents_mul_def (c : Cents) (k : ℝ) :
    c * k = (⟨c.val * k⟩ : Cents) := rfl

@[simp] lemma cents_add_def (a b : Cents) :
    a + b = (⟨a.val + b.val⟩ : Cents) := rfl

@[simp] lemma cents_sub_def (a b : Cents) :
    a - b = (⟨a.val - b.val⟩ : Cents) := rfl

@[simp] lemma hz_div_def (a b : Hz) :
    a / b = Cents.from_ratio (a.val / b.val) := rfl

/-- Rust truncating division/remainder versus Lean floor-style `ediv`/`emod`,
for a positive divisor: either they agree (remainder nonnegative cases) or
the dividend is negative with a nonzero remainder, where the truncating
remainder is `emod - L` and the truncating quotient is `ediv + 1`. -/
lemma tdiv_tmod_char (s L : ℤ) (hL : 0 < L) :
    (Int.tmod s L = s % L ∧ Int.tdiv s L = s / L) ∨
    (s % L ≠ 0 ∧ Int.tmod s L = s % L - L ∧ Int.tdiv s L = s / L + 1) := by
  rcases le_or_lt 0 s with hs | hs
  · exact Or.inl ⟨Int.tmod_eq_emod hs hL.le, Int.tdiv_eq_ediv hs hL.le⟩
  · have ht0 : (0 : ℤ) ≤ -s := by omega
    have htd : Int.tdiv s L = -((-s) / L) := by
      have h1 : Int.tdiv (-(-s)) L = -(Int.tdiv (-s) L) := Int.neg_tdiv (-s) L
      rw [neg_neg] at h1
      rw [h1, Int.tdiv_eq_ediv ht0 hL.le]
    have htm : Int.tmod s L = -((-s) % L) := by
      rw [Int.tmod_def, htd, Int.emod_def]
      ring
    have hadd := Int.ediv_add_emod (-s) L
    have hr0 : (0 : ℤ) ≤ (-s) % L := Int.emod_nonneg (-s) hL.ne'
    have hrL : (-s) % L < L := Int.emod_lt_of_pos (-s) hL
    rcases eq_or_ne ((-s) % L) 0 with hr | hr
    · left
      have key := (@Int.ediv_emod_unique s L 0 (-((-s) / L)) hL).mpr
        ⟨by nlinarith [hadd], le_refl 0, hL⟩
      refine ⟨?_, ?_⟩
      · rw [htm, hr, key.2]; exact neg_zero
      · rw [htd, key.1]
    · right
      have key := (@Int.ediv_emod_unique s L (L - (-s) % L) (-((-s) / L) - 1) hL).mpr
        ⟨by nlinarith [hadd], by omega, by omega⟩
      refine ⟨?_, ?_, ?_⟩
      · omega
      · rw [htm, key.2]; omega
      · rw [htd, key.1]; omega

/-- Intra-cycle cents offset of `CyclicTuning::pitch`, phrased for the
floor-style remainder `r = s % len ∈ [0, len)`: zero on cycle boundaries,
otherwise the stored cumulative step `steps[r - 1]`. -/
noncomputable def cycOffset (steps : List Cents) (r : ℤ) : ℝ :=
  if r = 0 then 0 else (steps.getD (r - 1).toNat ⟨0⟩).val

/-- Normal form for `CyclicTuning::pitch` on a nonempty cycle: the code's
truncating-division branches collapse to a single floor-division formula
`reference * 2 ^ ((last * (s / len) + cycOffset (s % len)) / 1200)`. -/
lemma cyclic_pitch_floor (t : CyclicTuning) (h : t.steps ≠ []) (s : ℤ) :
    t.pitch s = some ⟨t.reference.val * (2 : ℝ) ^
      (((t.steps.getLastD ⟨0⟩).val * ((s / (t.steps.length : ℤ) : ℤ) : ℝ) +
        cycOffset t.steps (s % (t.steps.length : ℤ))) / 1200)⟩ := by
  have hlen : t.steps.length ≠ 0 := by simpa using h
  have hL : (0 : ℤ) < (t.steps.length : ℤ) := by exact_mod_cast Nat.pos_of_ne_zero hlen
  unfold CyclicTuning.pitch
  rw [if_neg hlen]
  rcases tdiv_tmod_char s (t.steps.length : ℤ) hL with ⟨hm, hd⟩ | ⟨hne, hm, hd⟩
  · by_cases h0 : s % (t.steps.length : ℤ) = 0
    · rw [if_pos (by rw [hm, h0])]
      simp only [hz_add_def, cents_mul_def, Option.some.injEq]
      rw [hd, cycOffset, if_pos h0]
      norm_num
    · have hpos : 0 < Int.tmod s (t.steps.length : ℤ) := by
        have := Int.emod_nonneg s hL.ne'
        omega
      rw [if_neg (by omega), if_pos hpos]
      simp only [hz_add_def, cents_mul_def, cents_add_def, Option.some.injEq]
      rw [hd, hm, cycOffset, if_neg h0]
  · have hmL : s % (t.steps.length : ℤ) < (t.steps.length : ℤ) :=
      Int.emod_lt_of_pos s hL
    have hmneg : Int.tmod s (t.steps.length : ℤ) < 0 := by omega
    rw [if_neg (by omega), if_neg (by omega)]
    simp only [hz_add_def, cents_mul_def, cents_add_def, cents_sub_def, Option.some.injEq]
    have hidx : (t.steps.length : ℤ) + (s % (t.steps.length : ℤ) - (t.steps.length : ℤ)) - 1 =
        s % (t.steps.length : ℤ) - 1 := by ring
    rw [hd, hm, hidx, cycOffset, if_neg hne]
    congr 1
    push_cast
    ring_nf

/-- Claim C2: for every `CyclicTuning` built from a non-empty step list of
length `len`, with period `p` equal to the last stored entry, and every
integer `s`, `pitch (s + len)` equals `pitch s` transposed up by `p` (in the
real-valued model the frequencies are exactly equal; the source satisfies
this within `f32` rounding). -/
theorem cyclic_periodicity (t : CyclicTuning) (h : t.steps ≠ []) (s : ℤ) :
    t.pitch (s + (t.steps.length : ℤ)) =
      (t.pitch s).map (fun hz : Hz => hz + t.steps.getLastD ⟨0⟩) := by
  have hlen : t.steps.length ≠ 0 := by simpa using h
  have hL : (0 : ℤ) < (t.steps.length : ℤ) := by exact_mod_cast Nat.pos_of_ne_zero hlen
  rw [cyclic_pitch_floor t h, cyclic_pitch_floor t h s]
  have h1 : (s + (t.steps.length : ℤ)) / (t.steps.length : ℤ) =
      s / (t.steps.length : ℤ) + 1 := by
    have := Int.add_mul_ediv_right s 1 hL.ne'
    rwa [one_mul] at this
  have h2 : (s + (t.steps.length : ℤ)) % (t.steps.length : ℤ) =
      s % (t.steps.length : ℤ) := by
    have := @Int.add_mul_emod_self s 1 (t.steps.length : ℤ)
    rwa [one_mul] at this
  rw [h1, h2]
  simp only [Option.map_some', hz_add_def, Option.some.injEq]
  rw [mul_assoc, ← Real.rpow_add (by norm_num : (0 : ℝ) < 2)]
  congr 1
  push_cast
  ring_nf

/-- Witness for C2 at the concrete cycle `[700c, 1200c]` (reference 440 Hz)
and step `-1`. -/
theorem cyclic_periodicity_witness :
    (CyclicTuning.mk [⟨700⟩, ⟨1200⟩] ⟨440⟩).pitch
        (-1 + ((CyclicTuning.mk [⟨700⟩, ⟨1200⟩] ⟨440⟩).steps.length : ℤ)) =
      ((CyclicTuning.mk [⟨700⟩, ⟨1200⟩] ⟨440⟩).pitch (-1)).map
        (fun hz : Hz => hz + (CyclicTuning.mk [⟨700⟩, ⟨1200⟩] ⟨440⟩).steps.getLastD ⟨0⟩) :=
  cyclic_periodicity (CyclicTuning.mk [⟨700⟩, ⟨1200⟩] ⟨440⟩) (by simp) (-1)

@[simp] lemma hz_mk_val (h : Hz) : (⟨h.val⟩ : Hz) = h := rfl

@[simp] lemma cents_mk_val (c : Cents) : (⟨c.val⟩ : Cents) = c := rfl

lemma traverseOption_length {α β : Type} (f : α → Option β) :
    ∀ (l : List α) (r : List β), traverseOption f l = some r → r.length = l.length := by
  intro l
  induction l with
  | nil =>
    intro r h
    simp only [traverseOption, Option.some.injEq] at h
    simp [← h]
  | cons a l ih =>
    intro r h
    cases hfa : f a with
    | none => simp [traverseOption, hfa] at h
    | some b =>
      cases htail : traverseOption f l with
      | none => simp [traverseOption, hfa, htail] at h
      | some r2 =>
        simp only [traverseOption, hfa, htail, Option.map_some', Option.some.injEq] at h
        rw [← h]
        simp [ih r2 htail]

lemma traverseOption_getElem {α β : Type} (f : α → Option β) :
    ∀ (l : List α) (r : List β), traverseOption f l = some r →
      ∀ i : ℕ, r[i]? = (l[i]?).bind f := by
  intro l
  induction l with
  | nil =>
    intro r h i
    simp only [traverseOption, Option.some.injEq] at h
    rw [← h]
    simp
  | cons a l ih =>
    intro r h i
    cases hfa : f a with
    | none => simp [traverseOption, hfa] at h
    | some b =>
      cases htail : traverseOption f l with
      | none => simp [traverseOption, hfa, htail] at h
      | some r2 =>
        simp only [traverseOption, hfa, htail, Option.map_some', Option.some.injEq] at h
        rw [← h]
        cases i with
        | zero => simp [hfa]
        | succ n => simp [ih r2 htail n]

lemma traverseOption_none_of_mem {α β : Type} (f : α → Option β) :
    ∀ l : List α, ∀ a ∈ l, f a = none → traverseOption f l = none := by
  intro l
  induction l with
  | nil =>
    intro a ha
    exact absurd ha (List.not_mem_nil a)
  | cons x l ih =>
    intro a ha hfa
    rcases List.mem_cons.mp ha with rfl | hmem
    · simp [traverseOption, hfa]
    · have hnone := ih a hmem hfa
      cases hfx : f x with
      | none => simp [traverseOption, hfx]
      | some b => simp [traverseOption, hfx, hnone]

lemma traverseOption_isSome {α β : Type} (f : α → Option β) :
    ∀ l : List α, (∀ a ∈ l, f a ≠ none) → ∃ r, traverseOption f l = some r := by
  intro l
  induction l with
  | nil => exact fun _ => ⟨[], rfl⟩
  | cons a l ih =>
    intro h
    obtain ⟨b, hb⟩ := Option.ne_none_iff_exists'.mp (h a (List.mem_cons_self a l))
    obtain ⟨r, hr⟩ := ih (fun x hx => h x (List.mem_cons_of_mem a hx))
    exact ⟨b :: r, by simp [traverseOption, hb, hr]⟩

lemma traverseOption_map_some {α β : Type} (g : α → β) :
    ∀ l : List α, traverseOption (fun a => some (g a)) l = some (l.map g) := by
  intro l
  induction l with
  | nil => rfl
  | cons a l ih => simp [traverseOption, ih]

/-- A table produced by `MidiTuning::from_tuning` always has 127 entries. -/
lemma MidiTuning.from_tuning_length (t : Tuning) (k : ℕ) (m : MidiTuning)
    (h : MidiTuning.from_tuning t k = some m) : m.pitches.length = 127 := by
  obtain ⟨r, hr, hmk⟩ := Option.map_eq_some'.mp h
  rw [← hmk]
  simpa using traverseOption_length _ _ r hr

/-- Entry `i < 127` of a table produced by `MidiTuning::from_tuning` is
exactly the sample `tuning.pitch (i - refkey)`. -/
lemma MidiTuning.from_tuning_getElem (t : Tuning) (k : ℕ) (m : MidiTuning)
    (h : MidiTuning.from_tuning t k = some m) (i : ℕ) (hi : i < 127) :
    m.pitches[i]? = t.pitch ((i : ℤ) - (k : ℤ)) := by
  obtain ⟨r, hr, hmk⟩ := Option.map_eq_some'.mp h
  rw [← hmk]
  have hg := traverseOption_getElem _ _ r hr i
  rw [hg, List.getElem?_range hi]
  rfl

/-- A table produced by `MidiTuning::from_pitches` always has 127 entries. -/
lemma MidiTuning.from_pitches_length (l : List Hz) (m : MidiTuning)
    (h : MidiTuning.from_pitches l = some m) : m.pitches.length = 127 := by
  by_cases hl : l.length < 127
  · simp [MidiTuning.from_pitches, hl] at h
  · simp only [MidiTuning.from_pitches, hl, if_false, Option.some.injEq] at h
    rw [← h]
    simp only [List.length_take]
    omega

/-- The default table has 127 entries. -/
lemma MidiTuning.default_length : MidiTuning.default.pitches.length = 127 := by
  unfold MidiTuning.default
  rw [List.length_map, List.length_range]

/-- On a nonempty table, `MidiTuning::pitch 0` returns the head of the
table, which is also `MidiTuning::reference_pitch`. -/
lemma midi_pitch_zero (m : MidiTuning) (h : m.pitches ≠ []) :
    m.pitch 0 = some m.reference_pitch := by
  cases hp : m.pitches with
  | nil => exact absurd hp h
  | cons a l => simp [MidiTuning.pitch, MidiTuning.reference_pitch, hp]

/-- Claim C4: every constructed tuning satisfies
`pitch 0 = some reference_pitch` (exactly): `Edo` with positive cardinality,
`EqualSteps`, `CyclicTuning` with any step list (empty included), and every
successfully constructed `MidiTuning` (from `from_tuning`, `from_pitches`,
or `default`). -/
theorem pitch_zero_eq_reference :
    (∀ e : Edo, 0 < e.cardinality → e.pitch 0 = some e.reference_pitch) ∧
    (∀ t : EqualSteps, t.pitch 0 = some t.reference_pitch) ∧
    (∀ c : CyclicTuning, c.pitch 0 = some c.reference_pitch) ∧
    (∀ (t : Tuning) (k : ℕ) (m : MidiTuning),
      MidiTuning.from_tuning t k = some m → m.pitch 0 = some m.reference_pitch) ∧
    (∀ (l : List Hz) (m : MidiTuning),
      MidiTuning.from_pitches l = some m → m.pitch 0 = some m.reference_pitch) ∧
    MidiTuning.default.pitch 0 = some MidiTuning.default.reference_pitch := by
  refine ⟨?_, ?_, ?_, ?_, ?_, ?_⟩
  · intro e _
    simp [Edo.pitch, Edo.reference_pitch]
  · intro t
    simp [EqualSteps.pitch, EqualSteps.reference_pitch]
  · intro c
    by_cases hc : c.steps.length = 0
    · simp [CyclicTuning.pitch, hc, CyclicTuning.reference_pitch]
    · simp [CyclicTuning.pitch, hc, CyclicTuning.reference_pitch]
  · intro t k m h
    refine midi_pitch_zero m (List.ne_nil_of_length_pos ?_)
    rw [MidiTuning.from_tuning_length t k m h]
    norm_num
  · intro l m h
    refine midi_pitch_zero m (List.ne_nil_of_length_pos ?_)
    rw [MidiTuning.from_pitches_length l m h]
    norm_num
  · refine midi_pitch_zero _ (List.ne_nil_of_length_pos ?_)
    rw [MidiTuning.default_length]
    norm_num

/-- An example `EqualSteps` tuning (100-cent steps, reference 440 Hz). -/
noncomputable def esEx : EqualSteps := ⟨⟨100⟩, ⟨440⟩⟩

/-- The table `MidiTuning::from_tuning(esEx, 69)` produces. -/
noncomputable def mEx : MidiTuning :=
  ⟨(List.range 127).map (fun i => esEx.reference + esEx.step * (((i : ℤ) - 69 : ℤ) : ℝ))⟩

lemma from_tuning_esEx : MidiTuning.from_tuning esEx.toTuning 69 = some mEx := by
  unfold MidiTuning.from_tuning mEx
  rw [show (fun i : ℕ => esEx.toTuning.pitch ((i : ℤ) - ((69 : ℕ) : ℤ))) =
      (fun i : ℕ => some (esEx.reference + esEx.step * (((i : ℤ) - 69 : ℤ) : ℝ))) from rfl,
    traverseOption_map_some]
  rfl

/-- A `MidiTuning` built from 127 copies of 440 Hz. -/
def mPitchesEx : MidiTuning := ⟨List.replicate 127 ⟨440⟩⟩

lemma from_pitches_mPitchesEx :
    MidiTuning.from_pitches (List.replicate 127 ⟨440⟩) = some mPitchesEx := by
  simp [MidiTuning.from_pitches, mPitchesEx]

/-- Witness for C4 at concrete instances of each hypothesis-bearing part. -/
theorem pitch_zero_eq_reference_witness :
    (Edo.mk 12 ⟨440⟩).pitch 0 = some (Edo.mk 12 ⟨440⟩).reference_pitch ∧
    mEx.pitch 0 = some mEx.reference_pitch ∧
    mPitchesEx.pitch 0 = some mPitchesEx.reference_pitch :=
  ⟨pitch_zero_eq_reference.1 (Edo.mk 12 ⟨440⟩) (by norm_num),
   pitch_zero_eq_reference.2.2.2.1 esEx.toTuning 69 mEx from_tuning_esEx,
   pitch_zero_eq_reference.2.2.2.2.1 (List.replicate 127 ⟨440⟩) mPitchesEx
     from_pitches_mPitchesEx⟩

/-- Claim C7: `MidiTuning::from_tuning` samples `tuning.pitch (i - refkey)`
for `i` in `0..127` in order; it is absent exactly when some sample is
absent, and on success entry `i` of the table is exactly sample `i` — no
partial table is ever produced. -/
theorem from_tuning_spec (t : Tuning) (k : ℕ) (_hk : k < 127) :
    (MidiTuning.from_tuning t k = none ↔
      ∃ i : ℕ, i < 127 ∧ t.pitch ((i : ℤ) - (k : ℤ)) = none) ∧
    (∀ m : MidiTuning, MidiTuning.from_tuning t k = some m →
      ∀ i : ℕ, i < 127 → m.pitches[i]? = t.pitch ((i : ℤ) - (k : ℤ))) := by
  constructor
  · constructor
    · intro hn
      unfold MidiTuning.from_tuning at hn
      rw [Option.map_eq_none'] at hn
      by_contra hc
      push_neg at hc
      obtain ⟨r, hr⟩ := traverseOption_isSome _ (List.range 127)
        (fun a ha => hc a (List.mem_range.mp ha))
      rw [hr] at hn
      exact Option.noConfusion hn
    · rintro ⟨i, hi, hnone⟩
      unfold MidiTuning.from_tuning
      rw [traverseOption_none_of_mem _ (List.range 127) i (List.mem_range.mpr hi) hnone]
      rfl
  · intro m hm i hi
    exact MidiTuning.from_tuning_getElem t k m hm i hi

/-- Witness for C7: entry 5 of the table built from `esEx` at refkey 69. -/
theorem from_tuning_spec_witness :
    mEx.pitches[5]? = esEx.toTuning.pitch ((5 : ℤ) - (69 : ℤ)) :=
  (from_tuning_spec esEx.toTuning 69 (by norm_num)).2 mEx from_tuning_esEx 5 (by norm_num)

/-- Claim C8: `MidiTuning::from_pitches` is absent when fewer than 127
frequencies are supplied, and with 127 or more it succeeds with exactly the
first 127 verbatim. -/
theorem from_pitches_spec (l : List Hz) :
    (l.length < 127 → MidiTuning.from_pitches l = none) ∧
    (127 ≤ l.length → MidiTuning.from_pitches l = some ⟨l.take 127⟩) := by
  constructor
  · intro h
    rw [MidiTuning.from_pitches, if_pos h]
  · intro h
    rw [MidiTuning.from_pitches, if_neg (by omega)]

/-- Witness for C8 at 126 and 127 supplied frequencies. -/
theorem from_pitches_spec_witness :
    MidiTuning.from_pitches (List.replicate 126 (⟨440⟩ : Hz)) = none ∧
    MidiTuning.from_pitches (List.replicate 127 (⟨440⟩ : Hz)) =
      some ⟨(List.replicate 127 (⟨440⟩ : Hz)).take 127⟩ :=
  ⟨(from_pitches_spec (List.replicate 126 ⟨440⟩)).1 (by simp),
   (from_pitches_spec (List.replicate 127 ⟨440⟩)).2 (by simp)⟩

/-- Claim C9: `pitch` is total over all integer steps for `Edo`,
`EqualSteps` and `CyclicTuning`; for a successfully constructed
`MidiTuning` (table of 127 entries) it is absent exactly for `step < 0` or
`step > 126`, and in particular `pitch 126` yields a value. -/
theorem pitch_totality :
    (∀ (e : Edo) (s : ℤ), (e.pitch s).isSome) ∧
    (∀ (t : EqualSteps) (s : ℤ), (t.pitch s).isSome) ∧
    (∀ (c : CyclicTuning) (s : ℤ), (c.pitch s).isSome) ∧
    (∀ m : MidiTuning, m.pitches.length = 127 →
      ∀ s : ℤ, (m.pitch s = none ↔ s < 0 ∨ 126 < s)) ∧
    (∀ m : MidiTuning, m.pitches.length = 127 → (m.pitch 126).isSome) := by
  refine ⟨?_, ?_, ?_, ?_, ?_⟩
  · intro e s
    simp [Edo.pitch]
  · intro t s
    simp [EqualSteps.pitch]
  · intro c s
    by_cases hc : c.steps.length = 0
    · simp [CyclicTuning.pitch, hc]
    · by_cases h0 : Int.tmod s (c.steps.length : ℤ) = 0
      · simp [CyclicTuning.pitch, hc, h0]
      · simp [CyclicTuning.pitch, hc, h0]
  · intro m hlen s
    unfold MidiTuning.pitch
    by_cases hs : s < 0
    · rw [if_pos hs]
      simp only [true_iff]
      exact Or.inl hs
    · rw [if_neg hs]
      rw [List.getElem?_eq_none_iff, hlen]
      omega
  · intro m hlen
    unfold MidiTuning.pitch
    rw [if_neg (by norm_num)]
    have h126 : (126 : ℕ) < m.pitches.length := by omega
    rw [show ((126 : ℤ)).toNat = 126 from rfl, List.getElem?_eq_getElem h126]
    rfl

/-- Witness for C9: the default table at steps `-1`, `126`, and an `Edo`. -/
theorem pitch_totality_witness :
    MidiTuning.default.pitch (-1) = none ∧
    (MidiTuning.default.pitch 126).isSome ∧
    ((Edo.mk 12 ⟨440⟩).pitch 5).isSome :=
  ⟨(pitch_totality.2.2.2.1 MidiTuning.default MidiTuning.default_length (-1)).mpr
      (Or.inl (by norm_num)),
   pitch_totality.2.2.2.2 MidiTuning.default MidiTuning.default_length,
   pitch_totality.1 (Edo.mk 12 ⟨440⟩) 5⟩

/-- Claim C10: when `MidiTuning::from_tuning tuning refkey` succeeds, the
resulting `reference_pitch` is the first table entry, i.e. the sampled value
`tuning.pitch (-refkey)` (the frequency assigned to MIDI note 0). -/
theorem from_tuning_reference (t : Tuning) (k : ℕ) (m : MidiTuning) (_hk : k < 127)
    (hm : MidiTuning.from_tuning t k = some m) :
    some m.reference_pitch = t.pitch (-(k : ℤ)) ∧
    m.pitches[0]? = some m.reference_pitch := by
  have hlen := MidiTuning.from_tuning_length t k m hm
  have h0 := MidiTuning.from_tuning_getElem t k m hm 0 (by norm_num)
  cases hp : m.pitches with
  | nil => rw [hp] at hlen; simp at hlen
  | cons a l =>
    have href : m.reference_pitch = a := by simp [MidiTuning.reference_pitch, hp]
    rw [hp] at h0
    simp only [List.getElem?_cons_zero] at h0
    constructor
    · rw [href, h0]
      congr 1
      simp
    · rw [href]
      simp

/-- Witness for C10 on the table built from `esEx` at refkey 69. -/
theorem from_tuning_reference_witness :
    some mEx.reference_pitch = esEx.toTuning.pitch (-((69 : ℕ) : ℤ)) ∧
    mEx.pitches[0]? = some mEx.reference_pitch :=
  from_tuning_reference esEx.toTuning 69 mEx (by norm_num) from_tuning_esEx

/-- Claim C3: for the cyclic tuning with steps
`[Interval::from_ratio(1.5), Interval::from_ratio(2.0)]` and reference
440 Hz, `pitch 0` is exactly 440 Hz and `pitch 1`, `pitch 3`, `pitch (-1)`,
`pitch (-3)` are 660, 1320, 330 and 165 Hz (exactly, in the real-valued
model, hence rounding to those values in the `f32` source); both the
positive and the negative remainder branch are exercised. -/
theorem cyclic_example :
    (CyclicTuning.from_ratios [1.5, 2] ⟨440⟩).pitch 0 = some ⟨440⟩ ∧
    (CyclicTuning.from_ratios [1.5, 2] ⟨440⟩).pitch 1 = some ⟨660⟩ ∧
    (CyclicTuning.from_ratios [1.5, 2] ⟨440⟩).pitch 3 = some ⟨1320⟩ ∧
    (CyclicTuning.from_ratios [1.5, 2] ⟨440⟩).pitch (-1) = some ⟨330⟩ ∧
    (CyclicTuning.from_ratios [1.5, 2] ⟨440⟩).pitch (-3) = some ⟨165⟩ := by
  refine ⟨?_, ?_, ?_, ?_, ?_⟩
  · unfold CyclicTuning.pitch CyclicTuning.from_ratios
    norm_num [Cents.from_ratio]
  · unfold CyclicTuning.pitch CyclicTuning.from_ratios
    norm_num [Cents.from_ratio, show Int.tmod 1 2 = 1 from rfl, show Int.tdiv 1 2 = 0 from rfl]
  · unfold CyclicTuning.pitch CyclicTuning.from_ratios
    norm_num [Cents.from_ratio, show Int.tmod 3 2 = 1 from rfl, show Int.tdiv 3 2 = 1 from rfl]
    rw [show (1200 + 1200 * Real.logb 2 (3 / 2)) / 1200 = 1 + Real.logb 2 (3 / 2) from by ring,
      Real.rpow_add (by norm_num), Real.rpow_one]
    norm_num
  · unfold CyclicTuning.pitch CyclicTuning.from_ratios
    norm_num [Cents.from_ratio, show Int.tmod (-1) 2 = -1 from rfl,
      show Int.tdiv (-1) 2 = 0 from rfl]
    rw [show (1200 * Real.logb 2 (3 / 2) - 1200) / 1200 = Real.logb 2 (3 / 2) - 1 from by ring,
      Real.rpow_sub (by norm_num), Real.rpow_one]
    norm_num
  · unfold CyclicTuning.pitch CyclicTuning.from_ratios
    norm_num [Cents.from_ratio, show Int.tmod (-3) 2 = -1 from rfl,
      show Int.tdiv (-3) 2 = -1 from rfl]
    rw [show (-1200 + (1200 * Real.logb 2 (3 / 2) - 1200)) / 1200 =
        Real.logb 2 (3 / 2) - ((2 : ℕ) : ℝ) from by norm_num; ring,
      Real.rpow_sub (by norm_num), Real.rpow_natCast]
    norm_num

/-- Claim C6: the default `MidiTuning` is exactly the table that
`from_tuning(Edo::new(12, Hz(440.0)), 69)` produces (entrywise equal — in
the real-valued model the two tables coincide, so `from_tuning` succeeds
with the very same table), and the default table maps note 69 to 440 Hz and
note 81 to 880 Hz. -/
theorem midi_default_eq_from_tuning :
    MidiTuning.from_tuning (Edo.mk 12 ⟨440⟩).toTuning 69 = some MidiTuning.default ∧
    MidiTuning.default.pitch 69 = some ⟨440⟩ ∧
    MidiTuning.default.pitch 81 = some ⟨880⟩ := by
  refine ⟨?_, ?_, ?_⟩
  · unfold MidiTuning.from_tuning
    rw [show (fun i : ℕ => (Edo.mk 12 ⟨440⟩).toTuning.pitch ((i : ℤ) - ((69 : ℕ) : ℤ))) =
        (fun i : ℕ => some ((⟨440⟩ : Hz) +
          (⟨1200 / ((12 : ℕ) : ℝ)⟩ : Cents) * (((i : ℤ) - 69 : ℤ) : ℝ))) from rfl,
      traverseOption_map_some]
    simp only [Option.map_some']
    congr 1
    unfold MidiTuning.default
    congr 1
    refine List.map_congr_left ?_
    intro i _
    simp only [hz_add_def, cents_mul_def, A440]
    congr 1
    push_cast
    norm_num
    ring_nf
  · unfold MidiTuning.pitch MidiTuning.default
    rw [if_neg (by norm_num), show ((69 : ℤ)).toNat = 69 from rfl,
      List.getElem?_map, List.getElem?_range (by norm_num)]
    simp only [Option.map_some']
    norm_num [A440]
  · unfold MidiTuning.pitch MidiTuning.default
    rw [if_neg (by norm_num), show ((81 : ℤ)).toNat = 81 from rfl,
      List.getElem?_map, List.getElem?_range (by norm_num)]
    simp only [Option.map_some']
    norm_num [A440]

/-- Claim C1 (counter-evidence): the provided default `Tuning::interval`
does NOT return the cents value of `pitch(to) / pitch(from)`; because the
source's match pattern binds the names in swapped order, it returns the
cents value of `pitch(from) / pitch(to)`.  On a 100-cent `EqualSteps`
tuning at 440 Hz, `interval(0, 1)` evaluates to `-100` cents, while the
value the claim (and the trait's intent) prescribes — the interval taking
`pitch(0)` up to `pitch(1)`, i.e. `pitch(1) / pitch(0)` — is `+100` cents. -/
theorem default_interval_swaps_pitches :
    (EqualSteps.mk ⟨100⟩ ⟨440⟩).toTuning.interval 0 1 = some ⟨-100⟩ ∧
    (((EqualSteps.mk ⟨100⟩ ⟨440⟩).pitch 1).getD ⟨0⟩) /
        (((EqualSteps.mk ⟨100⟩ ⟨440⟩).pitch 0).getD ⟨0⟩) = (⟨100⟩ : Cents) ∧
    (⟨-100⟩ : Cents) ≠ (⟨100⟩ : Cents) := by
  have h440 : (440 : ℝ) ≠ 0 := by norm_num
  refine ⟨?_, ?_, ?_⟩
  · show some (Hz.divHz ((⟨440⟩ : Hz) + (⟨100⟩ : Cents) * ((0 : ℤ) : ℝ))
        ((⟨440⟩ : Hz) + (⟨100⟩ : Cents) * ((1 : ℤ) : ℝ))) = some ⟨-100⟩
    simp only [Hz.divHz, Cents.from_ratio, hz_add_def, cents_mul_def, Option.some.injEq,
      Cents.mk.injEq]
    rw [Real.logb_div (by positivity) (by positivity), Real.logb_mul h440 (by positivity),
      Real.logb_mul h440 (by positivity), Real.logb_rpow (by norm_num) (by norm_num),
      Real.logb_rpow (by norm_num) (by norm_num)]
    push_cast
    ring
  · show Hz.divHz ((⟨440⟩ : Hz) + (⟨100⟩ : Cents) * ((1 : ℤ) : ℝ))
        ((⟨440⟩ : Hz) + (⟨100⟩ : Cents) * ((0 : ℤ) : ℝ)) = ⟨100⟩
    simp only [Hz.divHz, Cents.from_ratio, hz_add_def, cents_mul_def, Cents.mk.injEq]
    rw [Real.logb_div (by positivity) (by positivity), Real.logb_mul h440 (by positivity),
      Real.logb_mul h440 (by positivity), Real.logb_rpow (by norm_num) (by norm_num),
      Real.logb_rpow (by norm_num) (by norm_num)]
    push_cast
    ring
  · intro h
    have := congrArg Cents.val h
    norm_num at this

/-- Claim C5 (counter-evidence): the overridden `Edo::interval` itself
matches the claimed formula — `Edo::new(12, Hz(440)).interval(0, 12)` is
exactly `Cents 1200` — but it is NOT numerically consistent with the
default `Tuning::interval` computation from the two pitch lookups, which
evaluates to `Cents (-1200)` on the same input (opposite sign), because the
default swaps the two pitches. -/
theorem edo_interval_sign_mismatch :
    (Edo.mk 12 ⟨440⟩).interval 0 12 = some ⟨1200⟩ ∧
    (Edo.mk 12 ⟨440⟩).toTuning.interval 0 12 = some ⟨-1200⟩ := by
  have h440 : (440 : ℝ) ≠ 0 := by norm_num
  constructor
  · unfold Edo.interval
    norm_num
  · show some (Hz.divHz ((⟨440⟩ : Hz) + (⟨1200 / ((12 : ℕ) : ℝ)⟩ : Cents) * ((0 : ℤ) : ℝ))
        ((⟨440⟩ : Hz) + (⟨1200 / ((12 : ℕ) : ℝ)⟩ : Cents) * ((12 : ℤ) : ℝ))) = some ⟨-1200⟩
    simp only [Hz.divHz, Cents.from_ratio, hz_add_def, cents_mul_def, Option.some.injEq,
      Cents.mk.injEq]
    rw [Real.logb_div (by positivity) (by positivity), Real.logb_mul h440 (by positivity),
      Real.logb_mul h440 (by positivity), Real.logb_rpow (by norm_num) (by norm_num),
      Real.logb_rpow (by norm_num) (by norm_num)]
    push_cast
    ring
